import Mathlib

/-!
Verification of the ingestion pipeline of the grafana-log-viewer repository:
recording-catalog deduplication, remote-range reconciliation, batched
line-format encoding and dispatch accounting, shallowly embedded in Lean.

Time is modelled in exact integer milliseconds (the source works in float
seconds with an epsilon of 1e-3 s = 1 ms and receives remote timestamps in
epoch milliseconds, converting them with a factor 1e-3); one model unit is
one millisecond, so the conversion factor disappears and the epsilon is 1.
Sample values are rationals; fallible code returns Except / Option.
-/

namespace LogViewer

/-- A decoded signal as used by `decoder/sending.py`: a name, the owning
message, a unit, and an ordered list of samples, each a pair of a timestamp
offset (milliseconds relative to the recording start) and a numeric value. -/
structure Sig where
  name : String
  message : String
  unit : String
  points : List (ℤ × ℚ)
  deriving DecidableEq, Repr

/-- Modelled from the spec: `asammdf.Signal.cut` is external to this
repository.  Following the wording of the spec (each segment is trimmed at
its two bounds), `signalCut a b s` keeps exactly the samples of `s` whose
timestamp lies in the closed interval from `a` to `b`. -/
def signalCut (a b : ℤ) (s : Sig) : Sig :=
  { s with points := s.points.filter (fun p => decide (a ≤ p.1) && decide (p.1 ≤ b)) }

/-- Modelled from the spec: `asammdf.Signal.extend` is external to this
repository; it concatenates the samples of two signals in original order. -/
def signalExtend (s t : Sig) : Sig :=
  { s with points := s.points ++ t.points }

/-- The epsilon used by `check_signal_range` in `decoder/sending.py`:
`eps = 1e-3` seconds, i.e. exactly one model millisecond. -/
def eps : ℤ := 1

/-- Outcome of the VictoriaMetrics export query performed by
`check_signal_range`: a non-200 HTTP status, an empty response body, an
exception raised during the request or while parsing the response, or a
parsed body carrying the list of covered timestamps in epoch milliseconds. -/
inductive RemoteResp where
  | httpError : RemoteResp
  | emptyBody : RemoteResp
  | exn : RemoteResp
  | ok : List ℤ → RemoteResp
  deriving DecidableEq, Repr

/-- Model of `check_signal_range` in `decoder/sending.py`.  `startTime` is the
absolute start of the recording in epoch milliseconds.  A signal with no
timestamps raises an IndexError before the try block in the source, which
propagates to the caller; this is the `Except.error` case.  A failed query
(non-200, empty body, exception — including the IndexError raised inside the
try block by an empty parsed timestamp list) returns the whole signal.
Otherwise the covered interval `respstart_ts .. respend_ts` is converted back
to offsets `cutstart .. cutend` relative to `startTime`, the signal is cut
into an older and a newer segment, each trimmed by `eps`, the segments are
concatenated, and the result is `none` when no sample remains. -/
def checkSignalRange (startTime : ℤ) (sig : Sig) (resp : RemoteResp) :
    Except Unit (Option Sig) :=
  match sig.points with
  | [] => Except.error ()
  | p0 :: rest =>
    match resp with
    | RemoteResp.httpError => Except.ok (some sig)
    | RemoteResp.emptyBody => Except.ok (some sig)
    | RemoteResp.exn => Except.ok (some sig)
    | RemoteResp.ok [] => Except.ok (some sig)
    | RemoteResp.ok (r0 :: rs) =>
      let t0 : ℤ := p0.1
      let tn : ℤ := (rest.getLastD p0).1
      let cutstart : ℤ := r0 - startTime
      let cutend : ℤ := rs.getLastD r0 - startTime
      let older := signalCut (t0 + eps) (cutstart - eps) sig
      let newer := signalCut (cutend + eps) (tn - eps) sig
      let newsig := signalExtend older newer
      Except.ok (if 0 < newsig.points.length then some newsig else none)

deriving instance DecidableEq for Except

/-- The samples carried by an optional reconciled signal. -/
def pointsOf : Option Sig → List (ℤ × ℚ)
  | none => []
  | some s => s.points

/-- Number of samples returned by a `checkSignalRange` outcome. -/
def returnedCount : Except Unit (Option Sig) → ℕ
  | Except.ok (some s) => s.points.length
  | _ => 0

/-- Number of samples of a signal whose timestamp lies in the closed
interval from `a` to `b` (offsets relative to the recording start). -/
def countInInterval (a b : ℤ) (s : Sig) : ℕ :=
  (s.points.filter (fun p => decide (a ≤ p.1) && decide (p.1 ≤ b))).length

/-- Whether a `checkSignalRange` call returned without raising. -/
def isOkB : Except Unit (Option Sig) → Bool
  | Except.ok _ => true
  | Except.error _ => false

/-- The samples carried by a `checkSignalRange` outcome. -/
def resultPoints : Except Unit (Option Sig) → List (ℤ × ℚ)
  | Except.ok o => pointsOf o
  | Except.error _ => []

/-- A decoded sample value as fed to the senders: either numeric (Python
`float(sample)` succeeds) or non-numeric (e.g. a string-coded channel, where
`float(sample)` raises). -/
inductive SampleVal where
  | num : ℚ → SampleVal
  | nonNumeric : String → SampleVal
  deriving DecidableEq, Repr

/-- Model of `is_valid_sample` in `decoder/sending.py`: whether the sample
converts to a numeric value. -/
def is_valid_sample : SampleVal → Bool
  | SampleVal.num _ => true
  | SampleVal.nonNumeric _ => false

/-- One JSON line of the VictoriaMetrics import format as built by
`make_list_of_vm_json_line_format` in `decoder/utils.py`: the metric labels
plus the parallel `values` and `timestamps` arrays of one batch. -/
structure VMLine where
  metric : String
  job : String
  message : String
  unit : String
  values : List ℚ
  timestamps : List ℤ
  deriving DecidableEq, Repr

/-- Python `str.replace` for the one pattern the source uses: spaces in the
job label become underscores. -/
def replaceSpaces (s : String) : String :=
  String.mk (s.toList.map (fun c => if c = ' ' then '_' else c))

/-- Slicing loop `for i in range(0, len(l), b + 1): l[i : i + b + 1]`.
The first argument is structural-recursion fuel; the list length is enough
fuel since every step consumes at least one element. -/
def chunkFuel {α : Type} (b : ℕ) : ℕ → List α → List (List α)
  | _, [] => []
  | 0, _ :: _ => []
  | fuel + 1, x :: xs => (x :: xs).take (b + 1) :: chunkFuel b fuel (xs.drop b)

/-- Slicing loop `for i in range(0, len(l), bs): l[i : i + bs]` of the
source; `bs = 0` is unreachable because callers reject `batch_size ≤ 0`
before slicing. -/
def chunkList {α : Type} (bs : ℕ) (l : List α) : List (List α) :=
  match bs with
  | 0 => []
  | b + 1 => chunkFuel b l.length l

/-- Model of `make_list_of_vm_json_line_format` in `decoder/utils.py`.
Checks, in source order: length mismatch raises a ValueError, a
non-positive batch size raises a ValueError, an empty values list yields no
lines; otherwise the two parallel lists are sliced into batches of at most
`batch_size` samples (`values[i : i + bs]` and `timestamps[i : i + bs]` on
two equal-length lists are modelled as the slices of the zipped list,
projected back). -/
def make_list_of_vm_json_line_format (metric_name message unit : String)
    (values : List ℚ) (timestamps : List ℤ) (job : String) (batch_size : ℤ) :
    Except String (List VMLine) :=
  if values.length ≠ timestamps.length then
    Except.error "Values and timestamps must have the same length."
  else if batch_size ≤ 0 then
    Except.error "Batch size must be a positive integer."
  else if values.length = 0 then
    Except.ok []
  else
    Except.ok ((chunkList batch_size.toNat (values.zip timestamps)).map
      (fun ch =>
        { metric := metric_name
          job := replaceSpaces job
          message := message
          unit := unit
          values := ch.map Prod.fst
          timestamps := ch.map Prod.snd }))

/-- The values/timestamps accumulation loop of `send_signal_using_json_lines`
in `decoder/sending.py`: non-numeric samples are skipped; a numeric sample
contributes its value and the absolute timestamp `start_time + offset`. -/
def validPairs (startTime : ℤ) (pairs : List (SampleVal × ℤ)) :
    List (ℚ × ℤ) :=
  pairs.filterMap (fun st =>
    match st.1 with
    | SampleVal.num q => some (q, startTime + st.2)
    | SampleVal.nonNumeric _ => none)

/-- The encoding pipeline of `send_signal_using_json_lines`: filter the
samples through `is_valid_sample`, then hand the parallel lists to
`make_list_of_vm_json_line_format`. -/
def encodeSignalBatches (metric_name message unit job : String)
    (startTime : ℤ) (pairs : List (SampleVal × ℤ)) (batch_size : ℤ) :
    Except String (List VMLine) :=
  let vp := validPairs startTime pairs
  make_list_of_vm_json_line_format metric_name message unit
    (vp.map Prod.fst) (vp.map Prod.snd) job batch_size

/-- Seven numeric samples, one second apart. -/
def sevenSamples : List (SampleVal × ℤ) :=
  [(SampleVal.num 1, 0), (SampleVal.num 2, 1000), (SampleVal.num 3, 2000),
   (SampleVal.num 4, 3000), (SampleVal.num 5, 4000), (SampleVal.num 6, 5000),
   (SampleVal.num 7, 6000)]

/-- One addition-merge step of `decode_and_send` in `decoder/sending.py`:
`signals_sample_count[k] = signals_sample_count.get(k, 0) + v`.  The Python
dict with default 0 is modelled as a total function. -/
def updateAdd (m : String → ℕ) (kv : String × ℕ) : String → ℕ :=
  fun k => if k = kv.1 then m kv.1 + kv.2 else m k

/-- The run-level merge of `decode_and_send`: every per-file result list is
folded into the run counts with `updateAdd`. -/
def mergeRunCounts (results : List (List (String × ℕ))) : String → ℕ :=
  results.foldl (fun m r => r.foldl updateAdd m) (fun _ => 0)

/-- The per-signal collection loop of `send_decoded_threded` in
`decoder/sending.py`: as futures complete, `if samples_sent > 0:
signals_sample_count[sig.name] = samples_sent` — a dict assignment, not an
addition.  The map is modelled as `String → Option ℕ` so absence is
visible. -/
def collectThreadedCounts (results : List (String × ℕ)) : String → Option ℕ :=
  results.foldl
    (fun m kv =>
      if 0 < kv.2 then fun k => if k = kv.1 then some kv.2 else m k else m)
    (fun _ => none)

/-- Total count contributed to one signal name by one result list. -/
def keySum (name : String) (l : List (String × ℕ)) : ℕ :=
  (l.map (fun kv => if kv.1 = name then kv.2 else 0)).sum

/-- Lower-casing as used for the substring checks of the skip predicates. -/
def strToLower (s : String) : String :=
  String.mk (s.toList.map Char.toLower)

/-- Whether the first list is an initial segment of the second. -/
def leadMatch {α : Type} [DecidableEq α] : List α → List α → Bool
  | [], _ => true
  | _ :: _, [] => false
  | a :: as, b :: bs => decide (a = b) && leadMatch as bs

/-- Whether the first list occurs as a contiguous subsequence of the
second. -/
def subSeqAt {α : Type} [DecidableEq α] (needle : List α) : List α → Bool
  | [] => needle.isEmpty
  | b :: bs => leadMatch needle (b :: bs) || subSeqAt needle bs

/-- Python `needle in haystack` on strings. -/
def strContains (haystack needle : String) : Bool :=
  subSeqAt needle.toList haystack.toList

/-- Model of `skip_signal` in `decoder/send_d65_data.py`: exact membership
in the skip list, then case-insensitive substring checks. -/
def skip_signal (name : String) : Bool :=
  if name = "NSerial" || name = "NChecksum" || name = "NMultiplexer" then true
  else if strContains (strToLower name) "mux" then true
  else if strContains (strToLower name) "nmultiplexer" then true
  else if strContains (strToLower name) "crc" then true
  else false

/-- Result of the per-file dispatch loop: the per-file counts dict and the
upload lines issued. -/
structure SendFileOutcome where
  counts : String → Option ℕ
  uploads : List VMLine

/-- One iteration of the signal loop of `send_file` / `send_decoded` in
`decoder/sending.py`: a signal matching the skip predicate is skipped
before any encoding or upload; otherwise `sendOne` (the `send_signal` call)
returns the number of samples sent and the upload lines, and a positive
count is assigned into the per-file counts dict. -/
def sendFileStep (skip : String → Bool) (sendOne : Sig → ℕ × List VMLine)
    (acc : SendFileOutcome) (sig : Sig) : SendFileOutcome :=
  if skip sig.name then acc
  else
    let r := sendOne sig
    { counts :=
        if 0 < r.1 then
          fun k => if k = sig.name then some r.1 else acc.counts k
        else acc.counts
      uploads := acc.uploads ++ r.2 }

/-- The signal loop of `send_file` / `send_decoded`, folded over the
decoded channels in order. -/
def sendFileLoop (skip : String → Bool) (sendOne : Sig → ℕ × List VMLine)
    (sigs : List Sig) : SendFileOutcome :=
  sigs.foldl (sendFileStep skip sendOne) ⟨fun _ => none, []⟩

/-- Outcome of the concatenate-then-decode attempt of `decode_and_send`
(`MDF().concatenate(files)` followed by `extract_bus_logging`): the decoded
channel list, or an exception raised by either step. -/
inductive ConcatOutcome where
  | ok : List Sig → ConcatOutcome
  | failed : ConcatOutcome
  deriving Repr

/-- Result of a `decode_and_send` run: the merged run counts and the files
that went through the per-file decode branch. -/
structure DriveOutcome where
  counts : String → ℕ
  perFileProcessed : List ℕ

/-- Model of `decode_and_send` in `decoder/sending.py`.  Files are opaque
identifiers.  `concatOutcome` is the oracle for concatenating and decoding
the whole batch, `perFileDecode` the oracle for decoding a single file
(`none` meaning the decode raised and was caught), `sendDecoded` the oracle
for `send_decoded` on a decoded channel list.  With `concat_first` and more
than one file, a concatenation or decode failure is logged and control
falls through to the final `return` with the counts accumulated so far;
the per-file loop runs only when `concat_first` is false or there are
fewer than two files. -/
def decode_and_send (concat_first : Bool) (dbcEmpty : Bool) (files : List ℕ)
    (concatOutcome : ConcatOutcome) (perFileDecode : ℕ → Option (List Sig))
    (sendDecoded : List Sig → List (String × ℕ)) : DriveOutcome :=
  if files.isEmpty then ⟨fun _ => 0, []⟩
  else if dbcEmpty then ⟨fun _ => 0, []⟩
  else if concat_first && decide (1 < files.length) then
    match concatOutcome with
    | ConcatOutcome.ok decoded =>
      if decoded.isEmpty then ⟨fun _ => 0, []⟩
      else ⟨(sendDecoded decoded).foldl updateAdd (fun _ => 0), []⟩
    | ConcatOutcome.failed => ⟨fun _ => 0, []⟩
  else
    files.foldl
      (fun acc f =>
        match perFileDecode f with
        | none => { acc with perFileProcessed := acc.perFileProcessed ++ [f] }
        | some decoded =>
          if decoded.isEmpty then
            { acc with perFileProcessed := acc.perFileProcessed ++ [f] }
          else
            { counts := (sendDecoded decoded).foldl updateAdd acc.counts
              perFileProcessed := acc.perFileProcessed ++ [f] })
      ⟨fun _ => 0, []⟩

/-- Model of the date filtering of `get_mf4_files` in `decoder/sending.py`:
files are (identifier, modification time) pairs; a start bound keeps files
modified STRICTLY after it and an end bound keeps files modified STRICTLY
before it. -/
def get_mf4_files (startDate endDate : Option ℤ) (files : List (ℕ × ℤ)) :
    List (ℕ × ℤ) :=
  let files1 :=
    match startDate with
    | none => files
    | some s => files.filter (fun f => decide (s < f.2))
  match endDate with
  | none => files1
  | some e => files1.filter (fun f => decide (f.2 < e))

/-- One step of `get_files_in_range` in `decoder/B3SR/send_b3sr.py`: a file
whose path is already collected is skipped, otherwise it is kept when its
start time satisfies `start <= t <= end` (both endpoints inclusive). -/
def rangeStep (start stop : ℤ) (acc : List (ℕ × ℤ)) (f : ℕ × ℤ) :
    List (ℕ × ℤ) :=
  if acc.any (fun a => decide (a.1 = f.1)) then acc
  else if decide (start ≤ f.2) && decide (f.2 ≤ stop) then acc ++ [f]
  else acc

/-- Model of `get_files_in_range` in `decoder/B3SR/send_b3sr.py`; the
future completion order is modelled as the given list order. -/
def get_files_in_range (start stop : ℤ) (files : List (ℕ × ℤ)) :
    List (ℕ × ℤ) :=
  files.foldl (rangeStep start stop) []

/-- A candidate recording file as scanned by `get_unique_filepaths` in
`decoder/SnowLeopardTMS/send_snow_leopard_tms.py`: its path segments and
the start timestamp read from the MDF header (`none` when the header read
raises). -/
structure FileEntry where
  parts : List String
  start : Option ℤ
  deriving DecidableEq, Repr

/-- Last `n` path segments, Python `parts[-n:]`. -/
def lastParts (n : ℕ) (l : List String) : List String :=
  (l.reverse.take n).reverse

/-- Join strings with a separator. -/
def joinWith (sep : String) : List String → String
  | [] => ""
  | [x] => x
  | x :: y :: xs => x ++ sep ++ joinWith sep (y :: xs)

/-- After one digit has been seen, consume further digits up to a closing
parenthesis; returns the remaining characters on a full match. -/
def copyDigits : List Char → Option (List Char)
  | [] => none
  | c :: cs =>
    if c = ')' then some cs
    else if c.isDigit then copyDigits cs
    else none

/-- Given the characters after a space and an opening parenthesis, match
one or more digits followed by the closing parenthesis. -/
def copyTail : List Char → Option (List Char)
  | [] => none
  | c :: cs => if c.isDigit then copyDigits cs else none

/-- The scan of `re.sub(r" \(\d+\)", "", s)`: at each position try to match
a space, an opening parenthesis, one or more digits and a closing
parenthesis; on a match drop it and continue after it, otherwise keep the
character and continue at the next position.  The first argument is
structural-recursion fuel; the character count is enough fuel. -/
def stripCopyTokens : ℕ → List Char → List Char
  | _, [] => []
  | 0, l => l
  | fuel + 1, c :: cs =>
    if c = ' ' then
      match cs with
      | '(' :: cs2 =>
        match copyTail cs2 with
        | some rest => stripCopyTokens fuel rest
        | none => ' ' :: stripCopyTokens fuel cs
      | _ => ' ' :: stripCopyTokens fuel cs
    else c :: stripCopyTokens fuel cs

/-- Remove every parenthesized copy suffix such as a trailing space plus
(1) from a string, as the `re.sub` of `is_duplicate` does. -/
def stripCopySuffix (s : String) : String :=
  String.mk (stripCopyTokens s.toList.length s.toList)

/-- The comparison key of `is_duplicate`: the last three path segments
joined by underscores, as stored for an accepted file. -/
def rawKey (f : FileEntry) : String :=
  joinWith "_" (lastParts 3 f.parts)

/-- The candidate key of `is_duplicate`: the raw key with parenthesized
copy suffixes stripped.  Only the candidate side is stripped. -/
def stripKey (f : FileEntry) : String :=
  stripCopySuffix (rawKey f)

/-- Model of the `is_duplicate` closure in `get_unique_filepaths`. -/
def is_duplicate (accepted : List (FileEntry × ℤ)) (f : FileEntry) : Bool :=
  accepted.any (fun a => decide (stripKey f = rawKey a.1))

/-- Model of the `name_is_decoded` closure: the lower-cased full path
contains one of the derivative markers. -/
def name_is_decoded (f : FileEntry) : Bool :=
  let s := strToLower (joinWith "/" f.parts)
  strContains s "decoded" || strContains s "deocded" || strContains s "merged"

/-- `pathlib.Path.suffix` of a file name: the final dotted extension, or
empty when there is no dot, the name starts with its only dot, or the dot
is the final character. -/
def pathSuffix (name : String) : String :=
  let cs := name.toList
  let revExt := cs.reverse.takeWhile (fun c => !(c = '.'))
  if revExt.length = cs.length then ""
  else if revExt.length + 1 = cs.length then ""
  else if revExt.isEmpty then ""
  else String.mk ('.' :: revExt.reverse)

/-- Model of the `timestamp_already_there` closure: a non-mf4 suffix or a
failed header read counts as a duplicate, as does an exact start-time match
with an already-accepted file. -/
def timestamp_already_there (accepted : List (FileEntry × ℤ))
    (f : FileEntry) : Bool :=
  if strToLower (pathSuffix (f.parts.getLastD "")) ≠ ".mf4" then true
  else
    match f.start with
    | none => true
    | some ts => accepted.any (fun a => decide (a.2 = ts))

/-- The window check of `_process_file`: both endpoints inclusive, absent
bounds pass. -/
def inWindow (wstart wend : Option ℤ) (t : ℤ) : Bool :=
  (match wstart with
   | none => true
   | some s => decide (s ≤ t)) &&
  (match wend with
   | none => true
   | some e => decide (t ≤ e))

/-- Model of the `_process_file` closure of `get_unique_filepaths`: the two
duplicate filters and the derivative-name filter run first; then the start
time is read (a raised read is caught and yields nothing) and the window
filter is applied. -/
def process_file (wstart wend : Option ℤ) (accepted : List (FileEntry × ℤ))
    (f : FileEntry) : Option (FileEntry × ℤ) :=
  if is_duplicate accepted f || name_is_decoded f ||
      timestamp_already_there accepted f then none
  else
    match f.start with
    | none => none
    | some st => if inWindow wstart wend st then some (f, st) else none

/-- Model of `get_unique_filepaths`: fold the candidates in order, adding
each accepted file to the shared accepted list.  The racy thread-pool
growth of the accepted list is modelled as this sequential serialization. -/
def get_unique_filepaths (wstart wend : Option ℤ) (files : List FileEntry) :
    List (FileEntry × ℤ) :=
  files.foldl
    (fun acc f =>
      match process_file wstart wend acc f with
      | some r => acc ++ [r]
      | none => acc)
    []

/-- Two mutually exclusive filters that both imply a third filter together
keep at most as many elements as the third filter keeps. -/
theorem two_filter_length_le {α : Type} (p q r : α → Bool)
    (hp : ∀ x, p x = true → r x = true)
    (hq : ∀ x, q x = true → r x = true)
    (hpq : ∀ x, ¬(p x = true ∧ q x = true)) :
    ∀ l : List α,
      (l.filter p).length + (l.filter q).length ≤ (l.filter r).length := by
  intro l
  induction l with
  | nil => simp
  | cons a l ih =>
    cases hpa : p a <;> cases hqa : q a
    · cases hra : r a <;> simp [List.filter_cons, hpa, hqa, hra] <;> omega
    · have hra := hq a hqa
      simp [List.filter_cons, hpa, hqa, hra]
      omega
    · have hra := hp a hpa
      simp [List.filter_cons, hpa, hqa, hra]
      omega
    · exact absurd ⟨hpa, hqa⟩ (hpq a)

/-- A filter and its negation split the length of a list. -/
theorem filter_length_add_not {α : Type} (r : α → Bool) :
    ∀ l : List α,
      (l.filter r).length + (l.filter (fun x => !r x)).length = l.length := by
  intro l
  induction l with
  | nil => simp
  | cons a l ih =>
    cases hra : r a <;> simp [List.filter_cons, hra] <;> omega

/-- Claim C1 (as stated, refuted): on a signal with timestamps 0 ms and
10000 ms and a remote response covering 5000 ms .. 6000 ms — an interval
containing no sample of the signal — `check_signal_range` returns no sample
at all (the epsilon trim drops the two boundary samples of the signal), while
the claim predicts `len(S) - |S ∩ I| = 2` returned samples. -/
theorem c1_count_counterexample :
    returnedCount (checkSignalRange 0 ⟨"m", "g", "u", [(0, 1), (10000, 2)]⟩
        (RemoteResp.ok [5000, 6000])) ≠
      (⟨"m", "g", "u", [(0, 1), (10000, 2)]⟩ : Sig).points.length -
        countInInterval (5000 - 0) (6000 - 0)
          ⟨"m", "g", "u", [(0, 1), (10000, 2)]⟩ := by decide

/-- Claim C1 (amended): for every signal with at least one sample and every
non-empty remote response whose covered interval `I` is well ordered, the
reconciler returns without raising, the returned samples are disjoint from
the interior of `I`, and the number of returned samples is AT MOST
`len(S) - |S ∩ I|` (equality fails: the epsilon trim also drops samples
within 1 ms of the signal ends and of the interval bounds). -/
theorem c1_reconciled_disjoint_le (startTime : ℤ) (sig : Sig) (r0 : ℤ)
    (rs : List ℤ)
    (hne : sig.points ≠ [])
    (hord : r0 ≤ rs.getLastD r0) :
    isOkB (checkSignalRange startTime sig (RemoteResp.ok (r0 :: rs))) = true ∧
    (∀ p ∈ resultPoints (checkSignalRange startTime sig (RemoteResp.ok (r0 :: rs))),
      ¬(r0 - startTime < p.1 ∧ p.1 < rs.getLastD r0 - startTime)) ∧
    (resultPoints (checkSignalRange startTime sig (RemoteResp.ok (r0 :: rs)))).length ≤
      sig.points.length -
        countInInterval (r0 - startTime) (rs.getLastD r0 - startTime) sig := by
  obtain ⟨nm, msg, un, pts⟩ := sig
  simp only [Sig.mk.injEq] at hne ⊢
  cases pts with
  | nil => exact absurd rfl hne
  | cons p0 rest =>
    simp only [checkSignalRange, signalCut, signalExtend, countInInterval, eps]
    set cutstart : ℤ := r0 - startTime with hcs
    set cutend : ℤ := rs.getLastD r0 - startTime with hce
    set pOld : ℤ × ℚ → Bool :=
      fun p => decide (p0.1 + 1 ≤ p.1) && decide (p.1 ≤ cutstart - 1) with hpOld
    set pNew : ℤ × ℚ → Bool :=
      fun p => decide (cutend + 1 ≤ p.1) &&
        decide (p.1 ≤ ((rest.getLastD p0).1 : ℤ) - 1) with hpNew
    set inI : ℤ × ℚ → Bool :=
      fun p => decide (cutstart ≤ p.1) && decide (p.1 ≤ cutend) with hinI
    have hcle : cutstart ≤ cutend := by omega
    have hOldImp : ∀ x : ℤ × ℚ, pOld x = true → (!inI x) = true := by
      intro x hx
      simp only [hpOld, Bool.and_eq_true, decide_eq_true_eq] at hx
      simp only [hinI, Bool.not_eq_true', Bool.and_eq_false_iff,
        decide_eq_false_iff_not, not_le]
      omega
    have hNewImp : ∀ x : ℤ × ℚ, pNew x = true → (!inI x) = true := by
      intro x hx
      simp only [hpNew, Bool.and_eq_true, decide_eq_true_eq] at hx
      simp only [hinI, Bool.not_eq_true', Bool.and_eq_false_iff,
        decide_eq_false_iff_not, not_le]
      omega
    have hExcl : ∀ x : ℤ × ℚ, ¬(pOld x = true ∧ pNew x = true) := by
      intro x ⟨hx1, hx2⟩
      simp only [hpOld, Bool.and_eq_true, decide_eq_true_eq] at hx1
      simp only [hpNew, Bool.and_eq_true, decide_eq_true_eq] at hx2
      omega
    have hsum := filter_length_add_not inI (p0 :: rest)
    have hle := two_filter_length_le pOld pNew (fun x => !inI x)
      hOldImp hNewImp hExcl (p0 :: rest)
    have hmem : ∀ p ∈ (p0 :: rest).filter pOld ++ (p0 :: rest).filter pNew,
        ¬(cutstart < p.1 ∧ p.1 < cutend) := by
      intro p hp hcontra
      rcases List.mem_append.mp hp with hp | hp
      · have := (List.mem_filter.mp hp).2
        simp only [hpOld, Bool.and_eq_true, decide_eq_true_eq] at this
        omega
      · have := (List.mem_filter.mp hp).2
        simp only [hpNew, Bool.and_eq_true, decide_eq_true_eq] at this
        omega
    have hlen : ((p0 :: rest).filter pOld ++ (p0 :: rest).filter pNew).length ≤
        (p0 :: rest).length - ((p0 :: rest).filter inI).length := by
      rw [List.length_append]
      omega
    by_cases hpos :
        0 < ((p0 :: rest).filter pOld ++ (p0 :: rest).filter pNew).length
    · rw [if_pos hpos]
      simp only [isOkB, resultPoints, pointsOf]
      exact ⟨trivial, hmem, hlen⟩
    · rw [if_neg hpos]
      simp only [isOkB, resultPoints, pointsOf]
      exact ⟨trivial, by simp, by simp⟩

/-- Claim C1 (amended) witness at a concrete signal and response. -/
theorem c1_reconciled_disjoint_le_witness :
    isOkB (checkSignalRange 0 ⟨"m", "g", "u", [(0, 1), (3000, 5), (10000, 2)]⟩
        (RemoteResp.ok (4000 :: [6000]))) = true ∧
    (∀ p ∈ resultPoints (checkSignalRange 0
        ⟨"m", "g", "u", [(0, 1), (3000, 5), (10000, 2)]⟩
        (RemoteResp.ok (4000 :: [6000]))),
      ¬((4000 : ℤ) - 0 < p.1 ∧ p.1 < [6000].getLastD 4000 - 0)) ∧
    (resultPoints (checkSignalRange 0
        ⟨"m", "g", "u", [(0, 1), (3000, 5), (10000, 2)]⟩
        (RemoteResp.ok (4000 :: [6000])))).length ≤
      (⟨"m", "g", "u", [(0, 1), (3000, 5), (10000, 2)]⟩ : Sig).points.length -
        countInInterval (4000 - 0) ([6000].getLastD 4000 - 0)
          ⟨"m", "g", "u", [(0, 1), (3000, 5), (10000, 2)]⟩ :=
  c1_reconciled_disjoint_le 0 ⟨"m", "g", "u", [(0, 1), (3000, 5), (10000, 2)]⟩
    4000 [6000] (by decide) (by decide)

/-- Claim C2: if the covered interval of the remote response contains the
whole absolute span of the signal, `check_signal_range` returns `None`, so
re-sending an already faithfully stored signal uploads nothing. -/
theorem c2_full_overlap_returns_none (startTime : ℤ) (sig : Sig) (r0 : ℤ)
    (rs : List ℤ) (p0 : ℤ × ℚ) (rest : List (ℤ × ℚ))
    (hp : sig.points = p0 :: rest)
    (hstart : r0 - startTime ≤ p0.1)
    (hend : (rest.getLastD p0).1 ≤ rs.getLastD r0 - startTime) :
    checkSignalRange startTime sig (RemoteResp.ok (r0 :: rs)) =
      Except.ok none := by
  obtain ⟨nm, msg, un, pts⟩ := sig
  simp only at hp
  subst hp
  simp only [checkSignalRange, signalCut, signalExtend, eps]
  have hOld : (p0 :: rest).filter
      (fun p : ℤ × ℚ => decide (p0.1 + 1 ≤ p.1) &&
        decide (p.1 ≤ r0 - startTime - 1)) = [] := by
    apply List.filter_eq_nil_iff.mpr
    intro x _
    simp only [Bool.and_eq_true, decide_eq_true_eq, not_and, not_le]
    omega
  have hNew : (p0 :: rest).filter
      (fun p : ℤ × ℚ => decide (rs.getLastD r0 - startTime + 1 ≤ p.1) &&
        decide (p.1 ≤ (rest.getLastD p0).1 - 1)) = [] := by
    apply List.filter_eq_nil_iff.mpr
    intro x _
    simp only [Bool.and_eq_true, decide_eq_true_eq, not_and, not_le]
    omega
  rw [hOld, hNew]
  simp

/-- Claim C2 witness: a two-sample signal whose span 0 .. 10000 ms is fully
covered by the remote response reconciles to `None`. -/
theorem c2_full_overlap_returns_none_witness :
    checkSignalRange 0 ⟨"m", "g", "u", [(0, 1), (10000, 2)]⟩
      (RemoteResp.ok (0 :: [10000])) = Except.ok none :=
  c2_full_overlap_returns_none 0 ⟨"m", "g", "u", [(0, 1), (10000, 2)]⟩
    0 [10000] (0, 1) [(10000, 2)] rfl (by decide) (by decide)

/-- Claim C3: whenever the remote range query fails — non-200 HTTP status,
empty response body, or an exception raised during the request or response
parsing — `check_signal_range` returns the entire input signal unchanged
(never `None` and never a trimmed signal). -/
theorem c3_query_failure_fail_open (startTime : ℤ) (sig : Sig)
    (resp : RemoteResp)
    (hne : sig.points ≠ [])
    (hfail : resp = RemoteResp.httpError ∨ resp = RemoteResp.emptyBody ∨
      resp = RemoteResp.exn) :
    checkSignalRange startTime sig resp = Except.ok (some sig) := by
  obtain ⟨nm, msg, un, pts⟩ := sig
  simp only [Sig.mk.injEq] at hne
  cases pts with
  | nil => exact absurd rfl hne
  | cons p0 rest =>
    rcases hfail with h | h | h <;> subst h <;> rfl

/-- Claim C3 witness at a concrete signal, for all three failure modes. -/
theorem c3_query_failure_fail_open_witness :
    checkSignalRange 0 ⟨"m", "g", "u", [(0, 1), (10000, 2)]⟩
        RemoteResp.httpError =
      Except.ok (some ⟨"m", "g", "u", [(0, 1), (10000, 2)]⟩) ∧
    checkSignalRange 0 ⟨"m", "g", "u", [(0, 1), (10000, 2)]⟩
        RemoteResp.emptyBody =
      Except.ok (some ⟨"m", "g", "u", [(0, 1), (10000, 2)]⟩) ∧
    checkSignalRange 0 ⟨"m", "g", "u", [(0, 1), (10000, 2)]⟩ RemoteResp.exn =
      Except.ok (some ⟨"m", "g", "u", [(0, 1), (10000, 2)]⟩) :=
  ⟨c3_query_failure_fail_open 0 _ _ (by decide) (Or.inl rfl),
   c3_query_failure_fail_open 0 _ _ (by decide) (Or.inr (Or.inl rfl)),
   c3_query_failure_fail_open 0 _ _ (by decide) (Or.inr (Or.inr rfl))⟩

/-- Every slice produced by `chunkFuel` has at most `b + 1` elements. -/
theorem chunkFuel_mem_length_le {α : Type} (b : ℕ) :
    ∀ (fuel : ℕ) (l : List α), ∀ c ∈ chunkFuel b fuel l,
      c.length ≤ b + 1 := by
  intro fuel
  induction fuel with
  | zero =>
    intro l c hc
    cases l with
    | nil => simp [chunkFuel] at hc
    | cons x xs => simp [chunkFuel] at hc
  | succ fuel ih =>
    intro l c hc
    cases l with
    | nil => simp [chunkFuel] at hc
    | cons x xs =>
      rw [chunkFuel] at hc
      rcases List.mem_cons.mp hc with h | h
      · subst h
        simp [List.length_take]
      · exact ih (xs.drop b) c h

/-- With enough fuel, the slices produced by `chunkFuel` partition the
length of the list. -/
theorem chunkFuel_length_sum {α : Type} (b : ℕ) :
    ∀ (fuel : ℕ) (l : List α), l.length ≤ fuel →
      ((chunkFuel b fuel l).map List.length).sum = l.length := by
  intro fuel
  induction fuel with
  | zero =>
    intro l hl
    cases l with
    | nil => simp [chunkFuel]
    | cons x xs => simp at hl
  | succ fuel ih =>
    intro l hl
    cases l with
    | nil => simp [chunkFuel]
    | cons x xs =>
      have hl' : xs.length ≤ fuel := by
        simp only [List.length_cons] at hl
        omega
      have hdl : (xs.drop b).length ≤ fuel := by
        simp only [List.length_drop]
        omega
      rw [chunkFuel]
      simp only [List.map_cons, List.sum_cons, List.length_take]
      rw [ih (xs.drop b) hdl]
      simp only [List.length_drop, List.length_cons]
      omega

/-- Summing the per-line sample counts over built lines is summing the
chunk lengths, for any line builder that stores one value per chunk
element. -/
theorem sum_of_line_lengths (mk : List (ℚ × ℤ) → VMLine)
    (hmk : ∀ ch, (mk ch).values.length = ch.length) :
    ∀ chs : List (List (ℚ × ℤ)),
      ((chs.map mk).map (fun line => line.values.length)).sum =
        (chs.map List.length).sum := by
  intro chs
  induction chs with
  | nil => rfl
  | cons c cs ih =>
    simp only [List.map_cons, List.sum_cons, hmk]
    rw [ih]

/-- The valid-sample filter keeps as many pairs as there are valid samples. -/
theorem validPairs_length (startTime : ℤ) :
    ∀ pairs : List (SampleVal × ℤ),
      (validPairs startTime pairs).length =
        (pairs.filter (fun p => is_valid_sample p.1)).length := by
  intro pairs
  induction pairs with
  | nil => rfl
  | cons p ps ih =>
    obtain ⟨s, t⟩ := p
    cases s with
    | num q => simpa [validPairs, List.filter_cons, is_valid_sample] using ih
    | nonNumeric str =>
      simpa [validPairs, List.filter_cons, is_valid_sample] using ih

/-- Claim C4: for every positive batch size and every sample list, the batch
encoder (fed by the per-sample validity filter) succeeds, each produced
batch carries at most `batch_size` samples, and the total number of samples
over all batches equals the number of valid numeric samples of the input;
in particular 7 samples with batch size 3 produce batches of sizes 3, 3, 1. -/
theorem c4_batch_size_bound :
    (∀ (batch_size : ℤ) (pairs : List (SampleVal × ℤ))
        (m g u j : String) (st : ℤ), 0 < batch_size →
      ∃ lines,
        encodeSignalBatches m g u j st pairs batch_size = Except.ok lines ∧
        (∀ line ∈ lines, line.values.length ≤ batch_size.toNat) ∧
        (lines.map (fun line => line.values.length)).sum =
          (pairs.filter (fun p => is_valid_sample p.1)).length) ∧
    (encodeSignalBatches "m" "g" "u" "j" 0 sevenSamples 3).map
        (fun lines => lines.map (fun line => line.values.length)) =
      Except.ok [3, 3, 1] := by
  constructor
  · intro batch_size pairs m g u j st hb
    simp only [encodeSignalBatches, make_list_of_vm_json_line_format,
      List.length_map]
    rw [if_neg (by simp), if_neg (by omega)]
    by_cases hvp : (validPairs st pairs).length = 0
    · rw [if_pos hvp]
      refine ⟨[], rfl, by simp, ?_⟩
      rw [← validPairs_length st pairs]
      simp [hvp]
    · rw [if_neg hvp]
      refine ⟨_, rfl, ?_, ?_⟩
      · intro line hline
        obtain ⟨ch, hch, hline⟩ := List.mem_map.mp hline
        subst hline
        simp only [List.length_map]
        obtain ⟨b, hb'⟩ : ∃ b, batch_size.toNat = b + 1 :=
          ⟨batch_size.toNat - 1, by omega⟩
        rw [hb'] at hch
        simp only [chunkList] at hch
        rw [hb']
        exact chunkFuel_mem_length_le b _ _ ch hch
      · rw [← validPairs_length st pairs]
        have hzip : ((validPairs st pairs).map Prod.fst).zip
            ((validPairs st pairs).map Prod.snd) = validPairs st pairs := by
          rw [List.zip_map']
          simp
        rw [hzip]
        obtain ⟨b, hb'⟩ : ∃ b, batch_size.toNat = b + 1 :=
          ⟨batch_size.toNat - 1, by omega⟩
        rw [hb']
        simp only [chunkList]
        rw [sum_of_line_lengths
          (fun ch =>
            { metric := m
              job := replaceSpaces j
              message := g
              unit := u
              values := ch.map Prod.fst
              timestamps := ch.map Prod.snd })
          (fun ch => by simp)]
        exact chunkFuel_length_sum b _ _ le_rfl
  · decide

/-- Claim C4 witness: batch size 3 on the seven concrete samples. -/
theorem c4_batch_size_bound_witness :
    ∃ lines,
      encodeSignalBatches "m" "g" "u" "j" 0 sevenSamples 3 = Except.ok lines ∧
      (∀ line ∈ lines, line.values.length ≤ (3 : ℤ).toNat) ∧
      (lines.map (fun line => line.values.length)).sum =
        (sevenSamples.filter (fun p => is_valid_sample p.1)).length :=
  c4_batch_size_bound.1 3 sevenSamples "m" "g" "u" "j" 0 (by decide)

/-- Claim C10: the encoder raises a ValueError whenever the values and
timestamps lists have different lengths or the batch size is non-positive,
and for an empty values list (with matching timestamps and a valid batch
size) it returns the empty list of batches without raising. -/
theorem c10_encoder_input_validation (metric_name message unit job : String)
    (values : List ℚ) (timestamps : List ℤ) (batch_size : ℤ) :
    (values.length ≠ timestamps.length →
      ∃ e, make_list_of_vm_json_line_format metric_name message unit values
        timestamps job batch_size = Except.error e) ∧
    (batch_size ≤ 0 →
      ∃ e, make_list_of_vm_json_line_format metric_name message unit values
        timestamps job batch_size = Except.error e) ∧
    (values = [] → timestamps = [] → 0 < batch_size →
      make_list_of_vm_json_line_format metric_name message unit values
        timestamps job batch_size = Except.ok []) := by
  refine ⟨?_, ?_, ?_⟩
  · intro hne
    exact ⟨_, by rw [make_list_of_vm_json_line_format, if_pos hne]⟩
  · intro hbs
    by_cases hne : values.length ≠ timestamps.length
    · exact ⟨_, by rw [make_list_of_vm_json_line_format, if_pos hne]⟩
    · exact ⟨_, by rw [make_list_of_vm_json_line_format, if_neg hne,
        if_pos hbs]⟩
  · intro hv ht hbs
    subst hv
    subst ht
    rw [make_list_of_vm_json_line_format]
    rw [if_neg (by simp), if_neg (by omega)]
    simp

/-- Claim C10 witness: a length mismatch errors, a zero batch size errors,
and empty inputs with batch size 3 yield no batches. -/
theorem c10_encoder_input_validation_witness :
    (∃ e, make_list_of_vm_json_line_format "m" "g" "u" [(1 : ℚ)] [] "j" 3 =
      Except.error e) ∧
    (∃ e, make_list_of_vm_json_line_format "m" "g" "u" [] [] "j" 0 =
      Except.error e) ∧
    make_list_of_vm_json_line_format "m" "g" "u" [] [] "j" 3 =
      Except.ok [] :=
  ⟨(c10_encoder_input_validation "m" "g" "u" "j" [(1 : ℚ)] [] 3).1 (by decide),
   (c10_encoder_input_validation "m" "g" "u" "j" [] [] 0).2.1 (by decide),
   (c10_encoder_input_validation "m" "g" "u" "j" [] [] 3).2.2 rfl rfl
     (by decide)⟩

/-- Folding one result list with `updateAdd` adds its `keySum`. -/
theorem foldl_updateAdd_eq (name : String) :
    ∀ (r : List (String × ℕ)) (m : String → ℕ),
      (r.foldl updateAdd m) name = m name + keySum name r := by
  intro r
  induction r with
  | nil => intro m; simp [keySum]
  | cons kv r ih =>
    intro m
    rw [List.foldl_cons, ih]
    by_cases h : name = kv.1
    · subst h
      simp [updateAdd, keySum]
      omega
    · have h' : ¬(kv.1 = name) := fun hh => h hh.symm
      simp [updateAdd, keySum, h, h']

/-- Folding a list of result lists adds the per-list `keySum`s. -/
theorem foldl_mergeRun_eq (name : String) :
    ∀ (results : List (List (String × ℕ))) (m : String → ℕ),
      (results.foldl (fun m r => r.foldl updateAdd m) m) name =
        m name + (results.map (keySum name)).sum := by
  intro results
  induction results with
  | nil => intro m; simp
  | cons r results ih =>
    intro m
    rw [List.foldl_cons, ih, foldl_updateAdd_eq]
    simp [Nat.add_assoc]

/-- Claim C6 (as stated, refuted): within one decoded file,
`send_decoded_threded` collects per-signal results by dict assignment, so a
signal name occurring in two per-worker results keeps only the last value
(5) instead of the sum (8). -/
theorem c6_overwrite_counterexample :
    collectThreadedCounts [("A", 3), ("A", 5)] "A" = some 5 ∧
    collectThreadedCounts [("A", 3), ("A", 5)] "A" ≠ some (3 + 5) := by
  constructor
  · rfl
  · decide

/-- Claim C6 (amended): the run-level merge of `decode_and_send` is
addition, never overwrite — the final count of a name is the sum of all
individual counts for that name over all per-file results, and the result
is independent of the order in which results are merged.  (Within one file,
`send_decoded_threded` and `send_file` instead assign, overwriting
duplicate names.) -/
theorem c6_run_merge_is_addition :
    (∀ (results : List (List (String × ℕ))) (name : String),
      mergeRunCounts results name = (results.map (keySum name)).sum) ∧
    (∀ (results results' : List (List (String × ℕ))) (name : String),
      results.Perm results' →
      mergeRunCounts results name = mergeRunCounts results' name) := by
  have h1 : ∀ (results : List (List (String × ℕ))) (name : String),
      mergeRunCounts results name = (results.map (keySum name)).sum := by
    intro results name
    rw [mergeRunCounts, foldl_mergeRun_eq]
    omega
  refine ⟨h1, ?_⟩
  intro results results' name hperm
  rw [h1, h1]
  exact (hperm.map (keySum name)).sum_eq

/-- Claim C6 (amended) witness: two result lists sharing the name A merge
to the sum 3 + 5, in either merge order. -/
theorem c6_run_merge_is_addition_witness :
    mergeRunCounts [[("A", 3)], [("A", 5), ("B", 2)]] "A" =
      ([[("A", 3)], [("A", 5), ("B", 2)]].map (keySum "A")).sum ∧
    mergeRunCounts [[("A", 3)], [("A", 5), ("B", 2)]] "A" =
      mergeRunCounts [[("A", 5), ("B", 2)], [("A", 3)]] "A" ∧
    mergeRunCounts [[("A", 3)], [("A", 5), ("B", 2)]] "A" = 3 + 5 :=
  ⟨c6_run_merge_is_addition.1 [[("A", 3)], [("A", 5), ("B", 2)]] "A",
   c6_run_merge_is_addition.2 [[("A", 3)], [("A", 5), ("B", 2)]]
     [[("A", 5), ("B", 2)], [("A", 3)]] "A" (List.Perm.swap _ _ _),
   by decide⟩

/-- Skipped signals are transparent to the fold. -/
theorem sendFile_foldl_filter (skip : String → Bool)
    (sendOne : Sig → ℕ × List VMLine) :
    ∀ (sigs : List Sig) (acc : SendFileOutcome),
      sigs.foldl (sendFileStep skip sendOne) acc =
        (sigs.filter (fun s => !skip s.name)).foldl
          (sendFileStep (fun _ => false) sendOne) acc := by
  intro sigs
  induction sigs with
  | nil => intro acc; rfl
  | cons s ss ih =>
    intro acc
    by_cases h : skip s.name
    · simp only [List.filter_cons, h, Bool.not_true, List.foldl_cons]
      rw [sendFileStep, if_pos h]
      exact ih acc
    · simp only [List.filter_cons, eq_self_iff_true, h, Bool.not_false,
        List.foldl_cons]
      rw [show sendFileStep skip sendOne acc s =
        sendFileStep (fun _ => false) sendOne acc s by
          rw [sendFileStep, if_neg h, sendFileStep, if_neg (by simp)]]
      exact ih _

/-- A name matched by the skip predicate never enters the counts dict. -/
theorem sendFile_skip_absent (skip : String → Bool)
    (sendOne : Sig → ℕ × List VMLine) (name : String)
    (hskip : skip name = true) :
    ∀ (sigs : List Sig) (acc : SendFileOutcome),
      acc.counts name = none →
      (sigs.foldl (sendFileStep skip sendOne) acc).counts name = none := by
  intro sigs
  induction sigs with
  | nil => intro acc hacc; exact hacc
  | cons s ss ih =>
    intro acc hacc
    rw [List.foldl_cons]
    apply ih
    rw [sendFileStep]
    by_cases h : skip s.name
    · rw [if_pos h]
      exact hacc
    · rw [if_neg h]
      have hne : name ≠ s.name := by
        intro hn
        rw [hn] at hskip
        exact h hskip
      by_cases hr : 0 < (sendOne s).1
      · simp only [hr, if_true, if_pos, hne, if_neg]
        simpa [hne] using hacc
      · simp only [hr, if_false]
        exact hacc

/-- Claim C7: the skip predicate is applied before any encoding or upload —
processing a signal list with a skip predicate is the same as processing
only the non-matching signals, and a matched name is absent from the
returned per-file counts; the concrete `skip_signal` predicate of
`send_d65_data.py` matches the checksum, multiplexer and serial-number
channels. -/
theorem c7_skip_predicate_before_encoding :
    (∀ (skip : String → Bool) (sendOne : Sig → ℕ × List VMLine)
        (sigs : List Sig),
      sendFileLoop skip sendOne sigs =
        sendFileLoop (fun _ => false) sendOne
          (sigs.filter (fun s => !skip s.name))) ∧
    (∀ (skip : String → Bool) (sendOne : Sig → ℕ × List VMLine)
        (sigs : List Sig) (name : String), skip name = true →
      (sendFileLoop skip sendOne sigs).counts name = none) ∧
    skip_signal "NChecksum" = true ∧ skip_signal "NSerial" = true ∧
    skip_signal "NMultiplexer" = true ∧ skip_signal "Engine_Mux_1" = true ∧
    skip_signal "Frame_CRC" = true := by
  refine ⟨?_, ?_, ?_, ?_, ?_, ?_, ?_⟩
  · intro skip sendOne sigs
    exact sendFile_foldl_filter skip sendOne sigs _
  · intro skip sendOne sigs name hskip
    exact sendFile_skip_absent skip sendOne name hskip sigs _ rfl
  · decide
  · decide
  · decide
  · decide
  · decide

/-- Claim C7 witness: a signal named NChecksum is absent from the counts of
a run that would otherwise record it. -/
theorem c7_skip_predicate_before_encoding_witness :
    (sendFileLoop skip_signal (fun _ => (4, []))
      [⟨"NChecksum", "g", "u", [(0, 1)]⟩]).counts "NChecksum" = none :=
  c7_skip_predicate_before_encoding.2.1 skip_signal (fun _ => (4, []))
    [⟨"NChecksum", "g", "u", [(0, 1)]⟩] "NChecksum" (by decide)

/-- An accepted candidate differs from every already-accepted file both in
its stripped name key (against the raw key of the accepted file) and in its
start timestamp. -/
theorem process_file_accepts (wstart wend : Option ℤ)
    (accepted : List (FileEntry × ℤ)) (f : FileEntry) (r : FileEntry × ℤ)
    (h : process_file wstart wend accepted f = some r) :
    ∀ a ∈ accepted, stripKey r.1 ≠ rawKey a.1 ∧ r.2 ≠ a.2 := by
  intro a ha
  rw [process_file] at h
  by_cases hcond : (is_duplicate accepted f || name_is_decoded f ||
      timestamp_already_there accepted f) = true
  · rw [if_pos hcond] at h
    exact absurd h (by simp)
  · rw [if_neg hcond] at h
    simp only [Bool.or_eq_true, not_or] at hcond
    obtain ⟨⟨hdup, _⟩, hts⟩ := hcond
    cases hst : f.start with
    | none =>
      simp only [hst] at h
      exact absurd h (by simp)
    | some st =>
      simp only [hst] at h
      by_cases hw : inWindow wstart wend st = true
      · rw [if_pos hw] at h
        have hr : r = (f, st) := by
          injection h with h'
          exact h'.symm
        subst hr
        simp only [is_duplicate, List.any_eq_true, decide_eq_true_eq,
          not_exists, not_and] at hdup
        simp only [timestamp_already_there, hst] at hts
        constructor
        · exact hdup a ha
        · by_cases hsuf :
              strToLower (pathSuffix (f.parts.getLastD "")) ≠ ".mf4"
          · rw [if_pos hsuf] at hts
            exact absurd rfl hts
          · rw [if_neg hsuf] at hts
            simp only [List.any_eq_true, decide_eq_true_eq, not_exists,
              not_and] at hts
            exact fun hc => hts a ha hc.symm
      · rw [if_neg hw] at h
        exact absurd h (by simp)

/-- The catalog fold preserves pairwise distinctness of stripped key
against raw key and of start timestamps. -/
theorem get_unique_filepaths_pairwise_aux (wstart wend : Option ℤ) :
    ∀ (files : List FileEntry) (acc : List (FileEntry × ℤ)),
      acc.Pairwise (fun a b => stripKey b.1 ≠ rawKey a.1 ∧ b.2 ≠ a.2) →
      (files.foldl
        (fun acc f =>
          match process_file wstart wend acc f with
          | some r => acc ++ [r]
          | none => acc) acc).Pairwise
        (fun a b => stripKey b.1 ≠ rawKey a.1 ∧ b.2 ≠ a.2) := by
  intro files
  induction files with
  | nil => intro acc h; exact h
  | cons f fs ih =>
    intro acc h
    rw [List.foldl_cons]
    cases hpf : process_file wstart wend acc f with
    | none =>
      simp only [hpf]
      exact ih acc h
    | some r =>
      simp only [hpf]
      apply ih
      rw [List.pairwise_append]
      refine ⟨h, List.pairwise_singleton _ _, ?_⟩
      intro a ha b hb
      rw [List.mem_singleton] at hb
      subst hb
      exact process_file_accepts wstart wend acc f b hpf a ha

/-- Claim C5: the deduplicated catalog holds each recording once — any two
accepted entries differ in start time, and a later entry's stripped name
key differs from every earlier entry's raw key; the three-file scenario
(two files with the identical start time 2025-01-01T00:00:00Z, one of them
a copy-suffix variant, plus one file at 01:00:00Z) yields exactly the two
distinct recordings. -/
theorem c5_catalog_dedup :
    (∀ (wstart wend : Option ℤ) (files : List FileEntry),
      (get_unique_filepaths wstart wend files).Pairwise
        (fun a b => stripKey b.1 ≠ rawKey a.1 ∧ b.2 ≠ a.2)) ∧
    get_unique_filepaths none none
      [⟨["CAN LOGS", "fold", "0001.MF4"], some 1735689600000⟩,
       ⟨["CAN LOGS", "fold", "0001 (1).MF4"], some 1735689600000⟩,
       ⟨["CAN LOGS", "fold", "0002.MF4"], some 1735693200000⟩] =
      [(⟨["CAN LOGS", "fold", "0001.MF4"], some 1735689600000⟩,
        1735689600000),
       (⟨["CAN LOGS", "fold", "0002.MF4"], some 1735693200000⟩,
        1735693200000)] := by
  constructor
  · intro ws we files
    exact get_unique_filepaths_pairwise_aux ws we files [] List.Pairwise.nil
  · decide

/-- Claim C8 (as stated, refuted): with `concat_first` and two files whose
individual decode would succeed and send 5 samples each, a concatenation
failure yields an empty counts map and no per-file processing at all,
while the same call with `concat_first = False` processes both files and
counts 10 samples — `decode_and_send` has no per-file fallback after a
concatenation failure. -/
theorem c8_no_perfile_fallback_counterexample :
    (decode_and_send true false [0, 1] ConcatOutcome.failed
        (fun _ => some [⟨"A", "g", "u", [(0, 1)]⟩])
        (fun _ => [("A", 5)])).perFileProcessed = [] ∧
    (decode_and_send true false [0, 1] ConcatOutcome.failed
        (fun _ => some [⟨"A", "g", "u", [(0, 1)]⟩])
        (fun _ => [("A", 5)])).counts "A" = 0 ∧
    (decode_and_send false false [0, 1] ConcatOutcome.failed
        (fun _ => some [⟨"A", "g", "u", [(0, 1)]⟩])
        (fun _ => [("A", 5)])).perFileProcessed = [0, 1] ∧
    (decode_and_send false false [0, 1] ConcatOutcome.failed
        (fun _ => some [⟨"A", "g", "u", [(0, 1)]⟩])
        (fun _ => [("A", 5)])).counts "A" = 10 := by
  refine ⟨by decide, by decide, by decide, by decide⟩

/-- Claim C8 (amended): when concatenating (or decoding the concatenation
of) a multi-file batch fails, `decode_and_send` logs the error and returns
the counts accumulated so far — an empty map — without aborting and without
processing any file individually; per-file processing happens only when
`concat_first` is false or fewer than two files are given. -/
theorem c8_concat_failure_empty_result (files : List ℕ)
    (perFileDecode : ℕ → Option (List Sig))
    (sendDecoded : List Sig → List (String × ℕ))
    (hlen : 1 < files.length) :
    (∀ name, (decode_and_send true false files ConcatOutcome.failed
      perFileDecode sendDecoded).counts name = 0) ∧
    (decode_and_send true false files ConcatOutcome.failed
      perFileDecode sendDecoded).perFileProcessed = [] := by
  have hne : files.isEmpty = false := by
    cases files with
    | nil => simp at hlen
    | cons x xs => rfl
  rw [decode_and_send, if_neg (by simp [hne]), if_neg (by simp),
    if_pos (by simp [hlen])]
  exact ⟨fun name => rfl, rfl⟩

/-- Claim C8 (amended) witness at a concrete two-file batch. -/
theorem c8_concat_failure_empty_result_witness :
    (∀ name, (decode_and_send true false [0, 1] ConcatOutcome.failed
      (fun _ => some [⟨"A", "g", "u", [(0, 1)]⟩])
      (fun _ => [("A", 5)])).counts name = 0) ∧
    (decode_and_send true false [0, 1] ConcatOutcome.failed
      (fun _ => some [⟨"A", "g", "u", [(0, 1)]⟩])
      (fun _ => [("A", 5)])).perFileProcessed = [] :=
  c8_concat_failure_empty_result [0, 1]
    (fun _ => some [⟨"A", "g", "u", [(0, 1)]⟩])
    (fun _ => [("A", 5)]) (by decide)

/-- Claim C9 (as stated, refuted): `get_mf4_files` filters with strict
inequalities on the file modification time, so a file whose timestamp
equals the window start (or the window end) is excluded, while the claim
requires both endpoints to be inclusive. -/
theorem c9_boundary_excluded_counterexample :
    get_mf4_files (some 100) (some 200) [(0, 100)] = [] ∧
    get_mf4_files (some 100) (some 200) [(0, 200)] = [] := by
  refine ⟨by decide, by decide⟩

/-- Everything already collected stays collected by the range fold. -/
theorem rangeStep_foldl_mono (start stop : ℤ) :
    ∀ (files : List (ℕ × ℤ)) (acc : List (ℕ × ℤ)) (x : ℕ × ℤ),
      x ∈ acc → x ∈ files.foldl (rangeStep start stop) acc := by
  intro files
  induction files with
  | nil => intro acc x hx; exact hx
  | cons f fs ih =>
    intro acc x hx
    rw [List.foldl_cons]
    apply ih
    rw [rangeStep]
    by_cases h1 : acc.any (fun a => decide (a.1 = f.1)) = true
    · rw [if_pos h1]; exact hx
    · rw [if_neg h1]
      by_cases h2 : (decide (start ≤ f.2) && decide (f.2 ≤ stop)) = true
      · rw [if_pos h2]; exact List.mem_append_left _ hx
      · rw [if_neg h2]; exact hx

/-- Everything the range fold collects lies inside the window. -/
theorem rangeStep_foldl_sound (start stop : ℤ) :
    ∀ (files : List (ℕ × ℤ)) (acc : List (ℕ × ℤ)),
      (∀ x ∈ acc, start ≤ x.2 ∧ x.2 ≤ stop) →
      ∀ x ∈ files.foldl (rangeStep start stop) acc,
        start ≤ x.2 ∧ x.2 ≤ stop := by
  intro files
  induction files with
  | nil => intro acc hacc x hx; exact hacc x hx
  | cons f fs ih =>
    intro acc hacc
    rw [List.foldl_cons]
    apply ih
    intro x hx
    rw [rangeStep] at hx
    by_cases h1 : acc.any (fun a => decide (a.1 = f.1)) = true
    · rw [if_pos h1] at hx; exact hacc x hx
    · rw [if_neg h1] at hx
      by_cases h2 : (decide (start ≤ f.2) && decide (f.2 ≤ stop)) = true
      · rw [if_pos h2] at hx
        rcases List.mem_append.mp hx with hx | hx
        · exact hacc x hx
        · rw [List.mem_singleton] at hx
          subst hx
          simp only [Bool.and_eq_true, decide_eq_true_eq] at h2
          exact h2
      · rw [if_neg h2] at hx; exact hacc x hx

/-- Every in-window input file is represented in the collected output. -/
theorem rangeStep_foldl_complete (start stop : ℤ) :
    ∀ (files : List (ℕ × ℤ)) (acc : List (ℕ × ℤ)) (f : ℕ × ℤ),
      f ∈ files → start ≤ f.2 → f.2 ≤ stop →
      ∃ e ∈ files.foldl (rangeStep start stop) acc, e.1 = f.1 := by
  intro files
  induction files with
  | nil => intro acc f hf; exact absurd hf (List.not_mem_nil f)
  | cons g gs ih =>
    intro acc f hf h1 h2
    rw [List.foldl_cons]
    rcases List.mem_cons.mp hf with hf | hf
    · subst hf
      by_cases hany : acc.any (fun a => decide (a.1 = f.1)) = true
      · obtain ⟨a, ha, ha2⟩ := List.any_eq_true.mp hany
        refine ⟨a, ?_, of_decide_eq_true ha2⟩
        apply rangeStep_foldl_mono
        rw [rangeStep, if_pos hany]
        exact ha
      · have hcond2 : (decide (start ≤ f.2) && decide (f.2 ≤ stop)) = true := by
          simp only [Bool.and_eq_true, decide_eq_true_eq]
          exact ⟨h1, h2⟩
        refine ⟨f, ?_, rfl⟩
        apply rangeStep_foldl_mono
        rw [rangeStep, if_neg hany, if_pos hcond2]
        exact List.mem_append_right _ (List.mem_singleton_self f)
    · exact ih _ f hf h1 h2

/-- Claim C9 (amended): `get_files_in_range` (B3SR) returns exactly files
inside the window with BOTH endpoints inclusive (every returned file is in
the window; every in-window input is represented), and the SnowLeopardTMS
scan window is inclusive at both endpoints too; `get_mf4_files` instead
filters strictly on the file modification time, excluding files whose
timestamp equals a window endpoint. -/
theorem c9_window_inclusive :
    (∀ (start stop : ℤ) (files : List (ℕ × ℤ)),
      ∀ x ∈ get_files_in_range start stop files, start ≤ x.2 ∧ x.2 ≤ stop) ∧
    (∀ (start stop : ℤ) (files : List (ℕ × ℤ)), ∀ f ∈ files,
      start ≤ f.2 → f.2 ≤ stop →
      ∃ e ∈ get_files_in_range start stop files, e.1 = f.1) ∧
    get_unique_filepaths (some 500) (some 500)
      [⟨["a", "b", "0001.MF4"], some 500⟩] =
      [(⟨["a", "b", "0001.MF4"], some 500⟩, 500)] := by
  refine ⟨?_, ?_, by decide⟩
  · intro start stop files x hx
    exact rangeStep_foldl_sound start stop files [] (by simp) x hx
  · intro start stop files f hf h1 h2
    exact rangeStep_foldl_complete start stop files [] f hf h1 h2

/-- Claim C9 (amended) witness: the two boundary files, one at each window
endpoint, are both inside the window and both represented. -/
theorem c9_window_inclusive_witness :
    (∀ x ∈ get_files_in_range 0 10 [(7, 0), (8, 10)],
      (0 : ℤ) ≤ x.2 ∧ x.2 ≤ 10) ∧
    (∃ e ∈ get_files_in_range 0 10 [(7, 0), (8, 10)], e.1 = 7) ∧
    (∃ e ∈ get_files_in_range 0 10 [(7, 0), (8, 10)], e.1 = 8) :=
  ⟨c9_window_inclusive.1 0 10 [(7, 0), (8, 10)],
   c9_window_inclusive.2.1 0 10 [(7, 0), (8, 10)] (7, 0)
     (by decide) (by decide) (by decide),
   c9_window_inclusive.2.1 0 10 [(7, 0), (8, 10)] (8, 10)
     (by decide) (by decide) (by decide)⟩

end LogViewer
